import Mathlib

/-!
# Power-set generator (`exam_review/midterm_review/powerset.cpp`)

A shallow embedding of `powerSet` and `main`, followed by the properties of the
specification that concern them.

Modelling conventions.

* `std::vector<int>` is `List Int`; `push_back` appends at the end. The values of
  the input are only copied, never computed with, so no machine arithmetic is
  performed on them.
* The loop counters `mask`, `i` and the bound `n` are C++ `int`s. They are
  natural numbers here, and the two operations that could leave the range of a
  32-bit signed `int` or the bounds of the vector (`1 << k` and `input[i]`) are
  fallible: they return a `Fault` instead of a value when the C++ operation has
  no defined result.
* The two output streams are accumulated as strings.
-/

namespace PowerSet

/-- The ways in which an operation of the program can be undefined. -/
inductive Fault where
  | shiftOutOfRange
  | indexOutOfBounds
  deriving DecidableEq, Repr

/-- What a call of `powerSet` leaves behind: the returned vector and the text
written to `std::cerr`. -/
structure Outcome where
  result : List (List Int)
  err : String
  deriving DecidableEq, Repr

/-- What a run of `main` leaves behind. -/
structure Run where
  stdout : String
  stderr : String
  exitCode : Int
  deriving DecidableEq, Repr

/-- The expression `1 << k` on a 32-bit signed `int`: defined when the result is
representable, that is for `k < 31`. -/
def shiftOne (k : Nat) : Except Fault Nat :=
  if k < 31 then .ok (1 <<< k) else .error .shiftOutOfRange

/-- The expression `input[i]`, defined when `i` is a valid index. -/
def index (input : List Int) (i : Nat) : Except Fault Int :=
  match input[i]? with
  | some v => .ok v
  | none => .error .indexOutOfBounds

/-- The inner loop `for (int i = 0; i < n; ++i)` of `powerSet`, over the values
of `i` still to be visited, with the subset built so far. -/
def subsetLoop (input : List Int) (mask : Nat) : List Nat → List Int → Except Fault (List Int)
  | [], subset => .ok subset
  | i :: rest, subset => do
    let bit ← shiftOne i
    if mask &&& bit ≠ 0 then
      let v ← index input i
      subsetLoop input mask rest (subset ++ [v])
    else
      subsetLoop input mask rest subset

/-- The outer loop `for (int mask = 0; mask < (1 << n); ++mask)` of `powerSet`,
over the values of `mask` still to be visited, with the result built so far. -/
def maskLoop (input : List Int) (n : Nat) : List Nat → List (List Int) → Except Fault (List (List Int))
  | [], result => .ok result
  | mask :: rest, result => do
    let subset ← subsetLoop input mask (List.range n) []
    maskLoop input n rest (result ++ [subset])

/-- The diagnostic of the length check. -/
def sizeMessage : String := "Input must be a set of exactly 3 elements.\n"

/-- The function `powerSet`. -/
def powerSet (input : List Int) : Except Fault Outcome :=
  if input.length ≠ 3 then
    .ok { result := [], err := sizeMessage }
  else do
    let n := input.length
    let bound ← shiftOne n
    let result ← maskLoop input n (List.range bound) []
    .ok { result := result, err := "" }

/-- The loop `for (int val : subset)` of `main`: every value followed by a
space. -/
def printValues : List Int → String
  | [] => ""
  | val :: rest => toString val ++ " " ++ printValues rest

/-- The loop `for (const auto& subset : subsets)` of `main`. -/
def printSubsets : List (List Int) → String
  | [] => ""
  | subset :: rest => "\x7b " ++ printValues subset ++ "\x7d\n" ++ printSubsets rest

/-- The function `main`. -/
def main : Except Fault Run := do
  let mySet : List Int := [1, 2, 3]
  let subsets ← powerSet mySet
  .ok { stdout := "Power set:\n" ++ printSubsets subsets.result
        stderr := subsets.err
        exitCode := 0 }

/-- The selection the specification describes for a mask `k`: the values
`input[i]` for those `i` in `0..2`, in increasing `i`, whose bit `i` is set in
`k`. It follows the wording of the specification, not the code. -/
def maskSelection (input : List Int) (k : Nat) : List Int :=
  ((List.range 3).filter (fun i => k.testBit i)).filterMap (fun i => input[i]?)

/-- A caller that performs one call of `powerSet` per given input, in order, on
the same error stream: the vectors the calls return, and the text accumulated
on `std::cerr`. It is used to speak about repeated calls. -/
def callSequence : List (List Int) → Except Fault (List (List (List Int)) × String)
  | [] => .ok ([], "")
  | input :: rest => do
    let out ← powerSet input
    let later ← callSequence rest
    .ok (out.result :: later.1, out.err ++ later.2)

/-- Merging two selections back in input order: position `i` of `positions` takes
the next value of `chosen` when bit `i` is set in `k`, and the next value of
`others` when it is not. -/
def mergeByMask (k : Nat) : List Nat → List Int → List Int → List Int
  | [], _, _ => []
  | i :: positions, chosen, others =>
    if k.testBit i then
      match chosen with
      | v :: chosen => v :: mergeByMask k positions chosen others
      | [] => mergeByMask k positions [] others
    else
      match others with
      | v :: others => v :: mergeByMask k positions chosen others
      | [] => mergeByMask k positions chosen []

/-! ## Evaluation lemmas -/

theorem powerSet_eval_three (a b c : Int) :
    powerSet [a, b, c] =
      .ok ⟨[[], [a], [b], [a, b], [c], [a, c], [b, c], [a, b, c]], ""⟩ := by
  simp [powerSet]
  rfl

theorem powerSet_eval_other (input : List Int) (h : input.length ≠ 3) :
    powerSet input = .ok ⟨[], sizeMessage⟩ := by
  simp [powerSet, h]

theorem sublist_three_cases (a b c : Int) (s : List Int) (hs : s.Sublist [a, b, c]) :
    s ∈ [[], [a], [b], [a, b], [c], [a, c], [b, c], [a, b, c]] := by
  rw [← List.mem_sublists] at hs
  simp [List.sublists] at hs
  simp
  tauto

theorem entries_three_sublist (a b c : Int) (e : List Int)
    (he : e ∈ [[], [a], [b], [a, b], [c], [a, c], [b, c], [a, b, c]]) :
    e.Sublist [a, b, c] := by
  rw [← List.mem_sublists]
  simp [List.sublists]
  simp at he
  tauto

theorem mem_iff_of_toFinset_eq {s t : List Int} (h : s.toFinset = t.toFinset) (v : Int) :
    v ∈ s ↔ v ∈ t := by
  rw [← List.mem_toFinset, ← List.mem_toFinset, h]

theorem entries_three_distinct (a b c : Int) (hab : a ≠ b) (hac : a ≠ c) (hbc : b ≠ c) :
    [[], [a], [b], [a, b], [c], [a, c], [b, c], [a, b, c]].Pairwise
      (fun s t => s.toFinset ≠ t.toFinset) := by
  have hba := hab.symm
  have hca := hac.symm
  have hcb := hbc.symm
  simp only [List.pairwise_cons, List.mem_cons, List.mem_singleton, forall_eq_or_imp, forall_eq,
    List.not_mem_nil, false_implies, implies_true, List.Pairwise.nil, and_true]
  refine ⟨?_, ?_, ?_, ?_, ?_, ?_, ?_⟩ <;> (try refine ⟨?_, ?_, ?_, ?_, ?_, ?_, ?_⟩) <;>
    (try refine ⟨?_, ?_, ?_, ?_, ?_, ?_⟩) <;> (try refine ⟨?_, ?_, ?_, ?_, ?_⟩) <;>
    (try refine ⟨?_, ?_, ?_, ?_⟩) <;> (try refine ⟨?_, ?_, ?_⟩) <;> (try refine ⟨?_, ?_⟩) <;>
    (intro h
     have ha := mem_iff_of_toFinset_eq h a
     have hb := mem_iff_of_toFinset_eq h b
     have hc := mem_iff_of_toFinset_eq h c
     simp_all)

theorem powerSet_total (input : List Int) : ∃ out, powerSet input = .ok out := by
  by_cases h : input.length = 3
  · obtain ⟨a, b, c, rfl⟩ := List.length_eq_three.mp h
    exact ⟨_, powerSet_eval_three a b c⟩
  · exact ⟨_, powerSet_eval_other input h⟩

theorem callSequence_cons (input : List Int) (rest : List (List Int)) (out : Outcome)
    (results : List (List (List Int))) (err : String) (hout : powerSet input = .ok out)
    (hrest : callSequence rest = .ok (results, err)) :
    callSequence (input :: rest) = .ok (out.result :: results, out.err ++ err) := by
  simp only [callSequence, hout, hrest]
  rfl

theorem callSequence_total (inputs : List (List Int)) :
    ∃ results err, callSequence inputs = .ok (results, err) ∧ results.length = inputs.length := by
  induction inputs with
  | nil => exact ⟨[], "", rfl, rfl⟩
  | cons input rest ih =>
    obtain ⟨out, hout⟩ := powerSet_total input
    obtain ⟨results, err, hrest, hlen⟩ := ih
    exact ⟨out.result :: results, out.err ++ err,
      callSequence_cons input rest out results err hout hrest, by simp [hlen]⟩

theorem callSequence_append (earlier later : List (List Int)) (r₁ r₂ : List (List (List Int)))
    (e₁ e₂ : String) (h₁ : callSequence earlier = .ok (r₁, e₁))
    (h₂ : callSequence later = .ok (r₂, e₂)) :
    callSequence (earlier ++ later) = .ok (r₁ ++ r₂, e₁ ++ e₂) := by
  induction earlier generalizing r₁ e₁ with
  | nil =>
    cases h₁
    simpa using h₂
  | cons input rest ih =>
    obtain ⟨out, hout⟩ := powerSet_total input
    obtain ⟨results, err, hrest, _⟩ := callSequence_total rest
    rw [callSequence_cons input rest out results err hout hrest] at h₁
    cases h₁
    rw [List.cons_append,
      callSequence_cons input (rest ++ later) out _ _ hout (ih results err hrest),
      List.cons_append, String.append_assoc]

theorem subsetLoop_ok_in_bounds (input : List Int) (mask : Nat) (positions : List Nat)
    (subset final : List Int) (h : subsetLoop input mask positions subset = .ok final) :
    ∀ i ∈ positions, i < 31 ∧ (mask &&& 1 <<< i ≠ 0 → i < input.length) := by
  induction positions generalizing subset with
  | nil => intro i hi; cases hi
  | cons p rest ih =>
    have hp : p < 31 := by
      by_contra hlt
      simp [subsetLoop, shiftOne, hlt, bind, Except.bind] at h
    by_cases hbit : mask &&& 1 <<< p ≠ 0
    · cases hv : input[p]? with
      | none => simp [subsetLoop, shiftOne, hp, hbit, index, hv, bind, Except.bind] at h
      | some v =>
        have hin : p < input.length := by
          by_contra hge
          rw [List.getElem?_eq_none (Nat.le_of_not_lt hge)] at hv
          cases hv
        have hrest : subsetLoop input mask rest (subset ++ [v]) = .ok final := by
          simpa [subsetLoop, shiftOne, hp, hbit, index, hv, bind, Except.bind] using h
        intro i hi
        rcases List.mem_cons.mp hi with rfl | hi
        · exact ⟨hp, fun _ => hin⟩
        · exact ih _ hrest i hi
    · have hrest : subsetLoop input mask rest subset = .ok final := by
        simpa [subsetLoop, shiftOne, hp, hbit, bind, Except.bind] using h
      intro i hi
      rcases List.mem_cons.mp hi with rfl | hi
      · exact ⟨hp, fun hset => absurd hset hbit⟩
      · exact ih _ hrest i hi

/-! ## Properties -/

/-- C1: for every input of exactly three integers `[a, b, c]` the vector
returned by `powerSet` is `[[], [a], [b], [a,b], [c], [a,c], [b,c], [a,b,c]]`, in
that order; for `[1, 2, 3]` it is
`[[], [1], [2], [1,2], [3], [1,3], [2,3], [1,2,3]]`. -/
theorem powerSet_three_in_mask_order (a b c : Int) :
    Outcome.result <$> powerSet [a, b, c] =
        .ok [[], [a], [b], [a, b], [c], [a, c], [b, c], [a, b, c]] ∧
      Outcome.result <$> powerSet [1, 2, 3] =
        .ok [[], [1], [2], [1, 2], [3], [1, 3], [2, 3], [1, 2, 3]] := by
  constructor <;> rw [powerSet_eval_three] <;> rfl

/-- C2: for every input whose length is not 3, `powerSet` returns the empty
vector. -/
theorem powerSet_wrong_size_empty (input : List Int) (h : input.length ≠ 3) :
    Outcome.result <$> powerSet input = .ok [] := by
  rw [powerSet_eval_other input h]
  rfl

theorem powerSet_wrong_size_empty_witness :
    ([] : List Int).length ≠ 3 ∧ ([1, 2] : List Int).length ≠ 3 ∧
      ([1, 2, 3, 4] : List Int).length ≠ 3 ∧
      Outcome.result <$> powerSet [] = .ok [] ∧
      Outcome.result <$> powerSet [1, 2] = .ok [] ∧
      Outcome.result <$> powerSet [1, 2, 3, 4] = .ok [] :=
  ⟨by decide, by decide, by decide,
    powerSet_wrong_size_empty [] (by decide),
    powerSet_wrong_size_empty [1, 2] (by decide),
    powerSet_wrong_size_empty [1, 2, 3, 4] (by decide)⟩

/-- C3: for every input of length 3, whatever its values, the vector returned
by `powerSet` has exactly 8 entries. -/
theorem powerSet_size_eight (input : List Int) (h : input.length = 3) :
    ∃ out, powerSet input = .ok out ∧ out.result.length = 8 := by
  obtain ⟨a, b, c, rfl⟩ := List.length_eq_three.mp h
  exact ⟨_, powerSet_eval_three a b c, rfl⟩

theorem powerSet_size_eight_witness :
    ([7, 7, 7] : List Int).length = 3 ∧
      ∃ out, powerSet [7, 7, 7] = .ok out ∧ out.result.length = 8 :=
  ⟨rfl, powerSet_size_eight [7, 7, 7] rfl⟩

/-- C4, as amended: for every input of length 3 whose values are pairwise
distinct, no two entries at different positions of the vector returned by
`powerSet` have the same set of values. -/
theorem powerSet_distinct_value_sets (input : List Int) (h : input.length = 3)
    (hd : input.Nodup) :
    ∃ out, powerSet input = .ok out ∧
      out.result.Pairwise (fun s t => s.toFinset ≠ t.toFinset) := by
  obtain ⟨a, b, c, rfl⟩ := List.length_eq_three.mp h
  simp only [List.nodup_cons, List.mem_cons, List.mem_singleton, not_or, List.not_mem_nil,
    not_false_eq_true, List.nodup_nil, and_true] at hd
  exact ⟨_, powerSet_eval_three a b c, entries_three_distinct a b c hd.1.1 hd.1.2 hd.2⟩

theorem powerSet_distinct_value_sets_witness :
    ([1, 2, 3] : List Int).length = 3 ∧ ([1, 2, 3] : List Int).Nodup ∧
      ∃ out, powerSet [1, 2, 3] = .ok out ∧
        out.result.Pairwise (fun s t => s.toFinset ≠ t.toFinset) :=
  ⟨rfl, by decide, powerSet_distinct_value_sets [1, 2, 3] rfl (by decide)⟩

/-- C4 as stated fails: the input `[1, 1, 2]` has length 3, and the entries at
positions 1 and 2 of the vector returned by `powerSet` are both `[1]`, so the
same set of values occurs at two positions. -/
theorem powerSet_repeated_value_sets :
    ([1, 1, 2] : List Int).length = 3 ∧
      Outcome.result <$> powerSet [1, 1, 2] =
        .ok [[], [1], [1], [1, 1], [2], [1, 2], [1, 2], [1, 1, 2]] ∧
      ¬ ∃ out, powerSet [1, 1, 2] = .ok out ∧
        out.result.Pairwise (fun s t => s.toFinset ≠ t.toFinset) := by
  refine ⟨rfl, by rw [powerSet_eval_three]; rfl, ?_⟩
  rintro ⟨out, h, hp⟩
  rw [powerSet_eval_three] at h
  cases h
  revert hp
  decide

/-- C5: for every input of length 3, every subsequence of the input (the empty
one and the input itself included) is an entry of the vector returned by
`powerSet`. -/
theorem powerSet_complete (input : List Int) (h : input.length = 3) (s : List Int)
    (hs : s.Sublist input) :
    ∃ out, powerSet input = .ok out ∧ s ∈ out.result := by
  obtain ⟨a, b, c, rfl⟩ := List.length_eq_three.mp h
  exact ⟨_, powerSet_eval_three a b c, sublist_three_cases a b c s hs⟩

theorem powerSet_complete_witness :
    ([4, 5, 6] : List Int).length = 3 ∧ ([4, 6] : List Int).Sublist ([4, 5, 6] : List Int) ∧
      ∃ out, powerSet [4, 5, 6] = .ok out ∧ [4, 6] ∈ out.result :=
  ⟨rfl, by decide, powerSet_complete [4, 5, 6] rfl [4, 6] (by decide)⟩

/-- C6: for every input of length 3, every entry of the vector returned by
`powerSet` is a subsequence of the input: its elements are elements of the
input, in the same relative order; the entry for mask 3 on `[1, 2, 3]` is
`[1, 2]`. -/
theorem powerSet_entries_subsequences (input : List Int) (h : input.length = 3) :
    (∃ out, powerSet input = .ok out ∧
        ∀ e ∈ out.result, e.Sublist input ∧ ∀ v ∈ e, v ∈ input) ∧
      (fun out => out.result[3]?) <$> powerSet [1, 2, 3] = .ok (some [1, 2]) := by
  obtain ⟨a, b, c, rfl⟩ := List.length_eq_three.mp h
  refine ⟨⟨_, powerSet_eval_three a b c, fun e he => ?_⟩, by rw [powerSet_eval_three]; rfl⟩
  have hsub := entries_three_sublist a b c e he
  exact ⟨hsub, fun v hv => hsub.subset hv⟩

theorem powerSet_entries_subsequences_witness :
    ([3, 1, 2] : List Int).length = 3 ∧
      (∃ out, powerSet [3, 1, 2] = .ok out ∧
        ∀ e ∈ out.result, e.Sublist [3, 1, 2] ∧ ∀ v ∈ e, v ∈ ([3, 1, 2] : List Int)) ∧
      (fun out => out.result[3]?) <$> powerSet [1, 2, 3] = .ok (some [1, 2]) :=
  ⟨rfl, powerSet_entries_subsequences [3, 1, 2] rfl⟩

/-- C7: for every input of length 3 and every mask `k` with `0 ≤ k ≤ 7`, the
entry at index `k` of the vector returned by `powerSet` is the list of the
`input[i]`, for `i` in `0..2` in increasing order, whose bit `i` is set in
`k`. -/
theorem powerSet_entry_is_mask_selection (input : List Int) (h : input.length = 3)
    (k : Nat) (hk : k ≤ 7) :
    ∃ out, powerSet input = .ok out ∧ out.result[k]? = some (maskSelection input k) := by
  obtain ⟨a, b, c, rfl⟩ := List.length_eq_three.mp h
  refine ⟨_, powerSet_eval_three a b c, ?_⟩
  interval_cases k <;> rfl

theorem powerSet_entry_is_mask_selection_witness :
    ([10, 20, 30] : List Int).length = 3 ∧ 5 ≤ 7 ∧ maskSelection [10, 20, 30] 5 = [10, 30] ∧
      ∃ out, powerSet [10, 20, 30] = .ok out ∧
        out.result[5]? = some (maskSelection [10, 20, 30] 5) :=
  ⟨rfl, by decide, by decide, powerSet_entry_is_mask_selection [10, 20, 30] rfl 5 (by decide)⟩

/-- C8, as amended: for every input of length 3, no entry of the vector
returned by `powerSet` contains a value more often than the input does; when
the values of the input are pairwise distinct, no entry contains a value more
than once. -/
theorem powerSet_entries_multiplicity (input : List Int) (h : input.length = 3) :
    ∃ out, powerSet input = .ok out ∧
      ∀ e ∈ out.result, (∀ v, e.count v ≤ input.count v) ∧ (input.Nodup → e.Nodup) := by
  obtain ⟨a, b, c, rfl⟩ := List.length_eq_three.mp h
  refine ⟨_, powerSet_eval_three a b c, fun e he => ?_⟩
  have hsub := entries_three_sublist a b c e he
  exact ⟨fun v => hsub.count_le v, fun hd => hd.sublist hsub⟩

theorem powerSet_entries_multiplicity_witness :
    ([5, 5, 6] : List Int).length = 3 ∧
      ∃ out, powerSet [5, 5, 6] = .ok out ∧
        ∀ e ∈ out.result, (∀ v, e.count v ≤ ([5, 5, 6] : List Int).count v) ∧
          (([5, 5, 6] : List Int).Nodup → e.Nodup) :=
  ⟨rfl, powerSet_entries_multiplicity [5, 5, 6] rfl⟩

/-- C8 as stated fails: the input `[5, 5, 5]` has length 3, and the entry at
position 3 of the vector returned by `powerSet` is `[5, 5]`, which contains
the value 5 twice. -/
theorem powerSet_entry_with_repetition :
    ([5, 5, 5] : List Int).length = 3 ∧
      (fun out => out.result[3]?) <$> powerSet [5, 5, 5] = .ok (some [5, 5]) ∧
      ¬ ∃ out, powerSet [5, 5, 5] = .ok out ∧ ∀ e ∈ out.result, e.Nodup := by
  refine ⟨rfl, by rw [powerSet_eval_three]; rfl, ?_⟩
  rintro ⟨out, h, hp⟩
  rw [powerSet_eval_three] at h
  cases h
  exact absurd (hp [5, 5] (by simp)) (by decide)

/-- C9: the text `main` writes to standard output is the nine lines
`Power set:`, `{ }`, `{ 1 }`, `{ 2 }`, `{ 1 2 }`, `{ 3 }`, `{ 1 3 }`, `{ 2 3 }`,
`{ 1 2 3 }`, each ended by a newline. -/
theorem main_stdout :
    Run.stdout <$> main =
      .ok ("Power set:\n" ++ "\x7b \x7d\n" ++ "\x7b 1 \x7d\n" ++ "\x7b 2 \x7d\n" ++
        "\x7b 1 2 \x7d\n" ++ "\x7b 3 \x7d\n" ++ "\x7b 1 3 \x7d\n" ++ "\x7b 2 3 \x7d\n" ++
        "\x7b 1 2 3 \x7d\n") := by
  rw [main, powerSet_eval_three]
  rfl

/-- C10: `powerSet` writes to the error stream exactly when the length of the
input is not 3; what it then writes is
`Input must be a set of exactly 3 elements.` and a newline, and for an input of
length 3 it writes nothing. -/
theorem powerSet_diagnostic (input : List Int) :
    ∃ out, powerSet input = .ok out ∧
      (out.err ≠ "" ↔ input.length ≠ 3) ∧
      (input.length ≠ 3 → out.err = "Input must be a set of exactly 3 elements.\n") ∧
      (input.length = 3 → out.err = "") := by
  by_cases h : input.length = 3
  · obtain ⟨a, b, c, rfl⟩ := List.length_eq_three.mp h
    exact ⟨_, powerSet_eval_three a b c, by simp, by simp, fun _ => rfl⟩
  · refine ⟨_, powerSet_eval_other input h, ?_, fun _ => rfl, fun h3 => absurd h3 h⟩
    simp only [ne_eq, h, not_false_eq_true, iff_true]
    decide

/-- C11: `powerSet` is deterministic and stateless. For every input, of any
length, and whatever calls were made before, two successive calls on that
input both return the vector a single first call returns: the two vectors
have the same length and the same entry at every index. -/
theorem powerSet_deterministic (earlier : List (List Int)) (input : List Int) :
    ∃ out, powerSet input = .ok out ∧
      ∃ (results : List (List (List Int))) (err : String) (r₁ r₂ : List (List Int)),
        callSequence (earlier ++ [input, input]) = .ok (results, err) ∧
        results.drop earlier.length = [r₁, r₂] ∧ r₁ = out.result ∧ r₂ = out.result ∧
        r₁.length = r₂.length ∧ ∀ i : Nat, r₁[i]? = r₂[i]? := by
  obtain ⟨out, hout⟩ := powerSet_total input
  obtain ⟨before, errBefore, hbefore, hlen⟩ := callSequence_total earlier
  have htwo : callSequence [input, input] =
      .ok ([out.result, out.result], out.err ++ (out.err ++ "")) :=
    callSequence_cons input [input] out _ _ hout
      (callSequence_cons input [] out [] "" hout rfl)
  refine ⟨out, hout, _, _, out.result, out.result,
    callSequence_append earlier [input, input] _ _ _ _ hbefore htwo, ?_, rfl, rfl, rfl,
    fun _ => rfl⟩
  rw [← hlen, List.drop_left]

/-- C12: in the program as written the length check of `powerSet` passes: `main`
calls `powerSet` on `[1, 2, 3]`, of length 3, that call writes nothing to the
error stream, and the run of `main` leaves standard error empty and returns
exit code 0. -/
theorem main_size_check_passes :
    main = (powerSet [1, 2, 3] >>= fun subsets =>
        .ok ⟨"Power set:\n" ++ printSubsets subsets.result, subsets.err, 0⟩) ∧
      ([1, 2, 3] : List Int).length = 3 ∧
      Outcome.err <$> powerSet [1, 2, 3] = .ok "" ∧
      Run.stderr <$> main = .ok "" ∧
      Run.exitCode <$> main = .ok 0 := by
  refine ⟨rfl, rfl, ?_, ?_, ?_⟩
  · rw [powerSet_eval_three]; rfl
  · rw [main, powerSet_eval_three]; rfl
  · rw [main, powerSet_eval_three]; rfl

/-- C13: for every input of length 3, `powerSet` runs without a fault: the bound
`1 << n` is evaluated with `n = 3` and is 8, and for every mask the inner loop
visits only positions `i` with `0 ≤ i < 3`, where `1 << i` is within the range
of a 32-bit signed `int` and `input[i]` is in bounds; the out-of-bounds branch
of the indexing is never taken. -/
theorem powerSet_accesses_in_bounds (input : List Int) (h : input.length = 3) :
    (∃ out, powerSet input = .ok out) ∧
      shiftOne input.length = .ok 8 ∧ 8 < 2 ^ 31 ∧
      ∀ mask ∈ List.range 8,
        (∃ subset, subsetLoop input mask (List.range input.length) [] = .ok subset) ∧
        ∀ i ∈ List.range input.length,
          i < input.length ∧ (∃ bit, shiftOne i = .ok bit ∧ bit < 2 ^ 31) ∧
            (∃ v, index input i = .ok v) ∧ index input i ≠ .error .indexOutOfBounds := by
  obtain ⟨a, b, c, rfl⟩ := List.length_eq_three.mp h
  rw [h]
  refine ⟨⟨_, powerSet_eval_three a b c⟩, rfl, by decide, fun mask hmask => ⟨?_, ?_⟩⟩
  · rw [List.mem_range] at hmask
    interval_cases mask <;> exact ⟨_, rfl⟩
  · intro i hi
    rw [List.mem_range] at hi
    interval_cases i <;>
      exact ⟨by decide, ⟨_, rfl, by decide⟩, ⟨_, rfl⟩, by simp [index]⟩

theorem powerSet_accesses_in_bounds_witness :
    ([9, 8, 7] : List Int).length = 3 ∧
      (∃ out, powerSet [9, 8, 7] = .ok out) ∧
      shiftOne ([9, 8, 7] : List Int).length = .ok 8 ∧ 8 < 2 ^ 31 ∧
      ∀ mask ∈ List.range 8,
        (∃ subset, subsetLoop [9, 8, 7] mask (List.range ([9, 8, 7] : List Int).length) [] =
          .ok subset) ∧
        ∀ i ∈ List.range ([9, 8, 7] : List Int).length,
          i < ([9, 8, 7] : List Int).length ∧ (∃ bit, shiftOne i = .ok bit ∧ bit < 2 ^ 31) ∧
            (∃ v, index [9, 8, 7] i = .ok v) ∧ index [9, 8, 7] i ≠ .error .indexOutOfBounds :=
  ⟨rfl, powerSet_accesses_in_bounds [9, 8, 7] rfl⟩

/-- C14: `powerSet` never inspects the values of its input, only its length. For
every function `f` on integers and every input, of any length, `powerSet` on
the input with `f` mapped over it returns the vector `powerSet` returns on the
input, with `f` mapped over every element of every entry, and writes the same
text to the error stream. -/
theorem powerSet_map (f : Int → Int) (input : List Int) :
    powerSet (input.map f) =
      (fun out => { result := out.result.map (List.map f), err := out.err }) <$>
        powerSet input := by
  by_cases h : input.length = 3
  · obtain ⟨a, b, c, rfl⟩ := List.length_eq_three.mp h
    rw [List.map, List.map, List.map, List.map, powerSet_eval_three, powerSet_eval_three]
    rfl
  · rw [powerSet_eval_other input h, powerSet_eval_other (input.map f) (by simpa using h)]
    rfl

/-- C15: for every input of length 3 and every `k` with `0 ≤ k ≤ 7`, the entries
at index `k` and index `7 - k` of the vector returned by `powerSet` are
complementary selections of the input: they are the selections of the masks
`k` and `7 - k`, every position `0..2` has its bit set in exactly one of the two
masks, the lengths of the two entries sum to 3, and merging them in input order
gives back the input. -/
theorem powerSet_complementary_entries (input : List Int) (h : input.length = 3)
    (k : Nat) (hk : k ≤ 7) :
    ∃ out, powerSet input = .ok out ∧
      ∃ s t, out.result[k]? = some s ∧ out.result[7 - k]? = some t ∧
        s = maskSelection input k ∧ t = maskSelection input (7 - k) ∧
        (∀ i < 3, k.testBit i = !(7 - k).testBit i) ∧
        s.length + t.length = 3 ∧
        mergeByMask k (List.range 3) s t = input := by
  obtain ⟨a, b, c, rfl⟩ := List.length_eq_three.mp h
  refine ⟨_, powerSet_eval_three a b c, ?_⟩
  interval_cases k <;> exact ⟨_, _, rfl, rfl, rfl, rfl, by decide, rfl, rfl⟩

theorem powerSet_complementary_entries_witness :
    ([10, 20, 30] : List Int).length = 3 ∧ 2 ≤ 7 ∧
      ∃ out, powerSet [10, 20, 30] = .ok out ∧
        ∃ s t, out.result[2]? = some s ∧ out.result[7 - 2]? = some t ∧
          s = maskSelection [10, 20, 30] 2 ∧ t = maskSelection [10, 20, 30] (7 - 2) ∧
          (∀ i < 3, (2 : Nat).testBit i = !(7 - 2 : Nat).testBit i) ∧
          s.length + t.length = 3 ∧
          mergeByMask 2 (List.range 3) s t = [10, 20, 30] :=
  ⟨rfl, by decide, powerSet_complementary_entries [10, 20, 30] rfl 2 (by decide)⟩

end PowerSet
